import Mathlib

/-!
Verification development for the hues.mul viewer.

The decoder core of the repository (file uo_hues_viewer.py) is embedded
shallowly below:

- `color16_to_rgb888` mirrors the Python function of the same name.
- `parse_hues` mirrors the Python function of the same name.  The byte
  source is modelled as a `List Nat` (one element per byte); the Python
  `f.read(n)` calls on a file are modelled by `List.take` and `List.drop`
  on the remaining bytes, and `os.path.getsize` by the list length.  The
  `pos >= filesize` overshoot guard of the source corresponds to the
  remaining-bytes list being empty.
- Name decoding `rawname.split(b"\x00", 1)[0].decode("ascii",
  errors="ignore").strip()` is embedded as `decodeName`: take bytes up to
  the first NUL, drop bytes that the ascii codec rejects (values >= 128),
  and strip, on both ends, the characters for which Python str.strip
  removes (the code points 9-13, 28-31 and 32 within the ascii range).
-/

def HUE_ENTRY_SIZE : Nat := 88

def HUE_GROUP_HEADER_SIZE : Nat := 4

def HUES_PER_GROUP : Nat := 8

/-- Embedding of Python color16_to_rgb888: convert a UO 15-bit color
(x RRRRR GGGGG BBBBB) to an (R,G,B) triple with channels 0..255. -/
def color16_to_rgb888 (c16 : Nat) : Nat × Nat × Nat :=
  let r5 := (c16 >>> 10) &&& 0x1F
  let g5 := (c16 >>> 5) &&& 0x1F
  let b5 := c16 &&& 0x1F
  (r5 * 255 / 31, g5 * 255 / 31, b5 * 255 / 31)

/-- Little-endian 16-bit word number `i` of a byte list, as read by
struct.unpack with format "<32HHH20s" (bytes `2*i` and `2*i+1`). -/
def word16 (data : List Nat) (i : Nat) : Nat :=
  data.getD (2 * i) 0 + 256 * data.getD (2 * i + 1) 0

/-- The characters (within the ascii range kept by the decode step) that
Python str.strip with no argument removes. -/
def pyIsSpace (b : Nat) : Bool :=
  b == 9 || b == 10 || b == 11 || b == 12 || b == 13 ||
    b == 28 || b == 29 || b == 30 || b == 31 || b == 32

/-- Python str.strip with no argument: remove whitespace from both ends. -/
def pyStrip (l : List Nat) : List Nat :=
  (((l.dropWhile pyIsSpace).reverse).dropWhile pyIsSpace).reverse

/-- Byte codes of the decoded name: split at the first NUL, drop the bytes
the ascii codec rejects (errors="ignore"), strip whitespace at both ends. -/
def decodeNameCodes (rawname : List Nat) : List Nat :=
  pyStrip ((rawname.takeWhile (fun b => b != 0)).filter (fun b => decide (b < 128)))

/-- The decoded name as a string (every kept code is < 128, hence a valid
character code). -/
def decodeName (rawname : List Nat) : String :=
  String.mk ((decodeNameCodes rawname).map Char.ofNat)

/-- One decoded hue record, mirroring the dict built by parse_hues. -/
structure HueEntry where
  index : Nat
  name : String
  start : Nat
  «end» : Nat
  colors16 : List Nat
  colorsRGB : List (Nat × Nat × Nat)
deriving DecidableEq

/-- Decode one 88-byte record (32 little-endian color words, start word,
end word, 20-byte name field), as the loop body of parse_hues does. -/
def parseEntry (data : List Nat) (idx : Nat) : HueEntry :=
  let colors16 := (List.range 32).map (fun i => word16 data i)
  { index := idx
    name := decodeName ((data.drop 68).take 20)
    start := word16 data 32
    «end» := word16 data 33
    colors16 := colors16
    colorsRGB := colors16.map color16_to_rgb888 }

/-- State returned by the inner record loop of parse_hues: the entries
decoded in this group, the remaining bytes, the next running index, and
whether the loop completed without hitting a truncated record (when
`ok = false` the Python code returns from the whole function). -/
structure RecState where
  entries : List HueEntry
  rest : List Nat
  nextIdx : Nat
  ok : Bool
deriving DecidableEq

/-- The inner `for _ in range(HUES_PER_GROUP)` loop of parse_hues: read up
to `n` fixed-size records; a short read aborts the whole decode. -/
def parseRecords : Nat → List Nat → Nat → RecState
  | 0, bs, idx => ⟨[], bs, idx, true⟩
  | n + 1, bs, idx =>
    if bs.length < HUE_ENTRY_SIZE then ⟨[], bs, idx, false⟩
    else
      let e := parseEntry (bs.take HUE_ENTRY_SIZE) idx
      let st := parseRecords n (bs.drop HUE_ENTRY_SIZE) (idx + 1)
      ⟨e :: st.entries, st.rest, st.nextIdx, st.ok⟩

/-- The outer `while True` loop of parse_hues, with explicit fuel (the
fuel is sufficient whenever it exceeds the number of whole groups).  A
header shorter than 4 bytes ends the loop; a truncated record (ok false)
returns everything decoded so far; the empty-rest test mirrors the
`pos >= filesize` overshoot guard. -/
def parseGroupsFuel : Nat → List Nat → Nat → List HueEntry
  | 0, _, _ => []
  | fuel + 1, bs, idx =>
    if bs.length < HUE_GROUP_HEADER_SIZE then []
    else
      let st := parseRecords HUES_PER_GROUP (bs.drop HUE_GROUP_HEADER_SIZE) idx
      if st.ok then
        if st.rest.length = 0 then st.entries
        else st.entries ++ parseGroupsFuel fuel st.rest st.nextIdx
      else st.entries

/-- Embedding of Python parse_hues on a byte source given as a list. -/
def parse_hues (bs : List Nat) : List HueEntry :=
  parseGroupsFuel (bs.length / 708 + 1) bs 1

/-- Number of entries parse_hues produces from a source of given bytes:
eight per whole 708-byte group, plus the whole 88-byte records that fit
after one further 4-byte header. -/
def numEntries (bs : List Nat) : Nat :=
  8 * (bs.length / 708) +
    (if 4 ≤ bs.length % 708 then min 8 ((bs.length % 708 - 4) / 88) else 0)

/-- Byte offset of record number `k` (0-based): its group starts at
`708 * (k / 8)`, the record follows the 4-byte header and `k % 8` earlier
88-byte records. -/
def entryOff (k : Nat) : Nat :=
  708 * (k / 8) + 4 + 88 * (k % 8)

theorem parseRecords_eq (n : Nat) : ∀ (bs : List Nat) (idx : Nat),
    parseRecords n bs idx =
      ⟨(List.range (min n (bs.length / 88))).map
          (fun i => parseEntry ((bs.drop (88 * i)).take 88) (idx + i)),
        bs.drop (88 * min n (bs.length / 88)),
        idx + min n (bs.length / 88),
        decide (88 * n ≤ bs.length)⟩ := by
  induction n with
  | zero =>
    intro bs idx
    simp [parseRecords]
  | succ n ih =>
    intro bs idx
    by_cases h : bs.length < 88
    · have hq : bs.length / 88 = 0 := Nat.div_eq_of_lt h
      have hd : decide (88 * (n + 1) ≤ bs.length) = false :=
        decide_eq_false_iff_not.mpr (by omega)
      simp [parseRecords, HUE_ENTRY_SIZE, if_pos h, hq, hd]
    · have h88 : 88 ≤ bs.length := by omega
      have hq1 : 1 ≤ bs.length / 88 := (Nat.le_div_iff_mul_le (by omega)).mpr (by omega)
      have hlen : (bs.drop 88).length = bs.length - 88 := by simp
      have hq2 : (bs.length - 88) / 88 = bs.length / 88 - 1 := by omega
      have hmin : min (n + 1) (bs.length / 88) = min n (bs.length / 88 - 1) + 1 := by omega
      have hok : decide (88 * n ≤ bs.length - 88) = decide (88 * (n + 1) ≤ bs.length) :=
        decide_eq_decide.mpr (by omega)
      simp only [parseRecords, HUE_ENTRY_SIZE, if_neg h, ih, hlen, hq2, hmin]
      simp only [RecState.mk.injEq]
      refine ⟨?_, ?_, by omega, hok⟩
      · rw [List.range_succ_eq_map, List.map_cons, List.map_map]
        refine congrArg₂ List.cons (by simp) ?_
        refine List.map_congr_left ?_
        intro i _
        simp only [Function.comp_apply, List.drop_drop]
        have h1 : 88 + 88 * i = 88 * Nat.succ i := by omega
        have h2 : idx + 1 + i = idx + Nat.succ i := by omega
        rw [h1, h2]
      · rw [List.drop_drop]
        refine congrArg₂ List.drop (by omega) rfl

theorem numEntries_small {bs : List Nat} (h : bs.length < 4) : numEntries bs = 0 := by
  have h1 : bs.length / 708 = 0 := Nat.div_eq_of_lt (by omega)
  have h2 : bs.length % 708 = bs.length := Nat.mod_eq_of_lt (by omega)
  unfold numEntries
  rw [h1, h2, if_neg (by omega)]

theorem numEntries_frag {bs : List Nat} (h4 : 4 ≤ bs.length) (h : bs.length < 708) :
    numEntries bs = min 8 ((bs.length - 4) / 88) := by
  have h1 : bs.length / 708 = 0 := Nat.div_eq_of_lt (by omega)
  have h2 : bs.length % 708 = bs.length := Nat.mod_eq_of_lt (by omega)
  unfold numEntries
  rw [h1, h2, if_pos h4]
  omega

theorem numEntries_big {bs : List Nat} (h : 708 ≤ bs.length) :
    numEntries bs = 8 + numEntries (bs.drop 708) := by
  unfold numEntries
  simp only [List.length_drop]
  have e1 : (bs.length - 708) / 708 = bs.length / 708 - 1 := by omega
  have e2 : (bs.length - 708) % 708 = bs.length % 708 := by omega
  have e3 : 1 ≤ bs.length / 708 := (Nat.le_div_iff_mul_le (by omega)).mpr (by omega)
  rw [e1, e2]
  generalize (if 4 ≤ bs.length % 708 then min 8 ((bs.length % 708 - 4) / 88) else 0) = t
  omega

theorem entryOff_lt_8 {k : Nat} (h : k < 8) : entryOff k = 4 + 88 * k := by
  unfold entryOff
  omega

theorem entryOff_add_8 (t : Nat) : entryOff (8 + t) = 708 + entryOff t := by
  unfold entryOff
  omega

theorem parseGroupsFuel_eq (f : Nat) : ∀ (bs : List Nat) (idx : Nat), bs.length / 708 < f →
    parseGroupsFuel f bs idx =
      (List.range (numEntries bs)).map
        (fun k => parseEntry ((bs.drop (entryOff k)).take 88) (idx + k)) := by
  induction f with
  | zero =>
    intro bs idx h
    exact absurd h (Nat.not_lt_zero _)
  | succ f ih =>
    intro bs idx hf
    by_cases h4 : bs.length < 4
    · simp [parseGroupsFuel, HUE_GROUP_HEADER_SIZE, if_pos h4, numEntries_small h4]
    · have h4' : 4 ≤ bs.length := by omega
      have hdl : (bs.drop 4).length = bs.length - 4 := by simp
      simp only [parseGroupsFuel, HUE_GROUP_HEADER_SIZE, HUES_PER_GROUP, if_neg h4,
        parseRecords_eq, hdl]
      by_cases h708 : bs.length < 708
      · have hok : decide (88 * 8 ≤ bs.length - 4) = false :=
          decide_eq_false_iff_not.mpr (by omega)
        rw [hok]
        simp only [Bool.false_eq_true, if_false]
        rw [numEntries_frag h4' h708]
        refine List.map_congr_left ?_
        intro i hi
        have him : i < 8 := by
          have := List.mem_range.mp hi
          omega
        rw [List.drop_drop, entryOff_lt_8 him]
      · have h708' : 708 ≤ bs.length := by omega
        have hok : decide (88 * 8 ≤ bs.length - 4) = true :=
          decide_eq_true_eq.mpr (by omega)
        have hm : min 8 ((bs.length - 4) / 88) = 8 := by omega
        rw [hok, hm]
        simp only [if_true]
        have hrest : (bs.drop 4).drop (88 * 8) = bs.drop 708 := by
          rw [List.drop_drop]
        have hrl : (bs.drop 708).length = bs.length - 708 := by simp
        rw [hrest, hrl]
        have hgroup0 :
            (List.range 8).map
                (fun i => parseEntry (((bs.drop 4).drop (88 * i)).take 88) (idx + i)) =
              (List.range 8).map
                (fun k => parseEntry ((bs.drop (entryOff k)).take 88) (idx + k)) := by
          refine List.map_congr_left ?_
          intro i hi
          have him : i < 8 := List.mem_range.mp hi
          rw [List.drop_drop, entryOff_lt_8 him]
        by_cases hzero : bs.length - 708 = 0
        · rw [if_pos hzero]
          have hlen : bs.length = 708 := by omega
          have hnum : numEntries bs = 8 := by
            rw [numEntries_big h708',
              numEntries_small (show (bs.drop 708).length < 4 by rw [hrl]; omega)]
          rw [hnum, hgroup0]
        · rw [if_neg hzero]
          have hrec : (bs.drop 708).length / 708 < f := by
            rw [hrl]
            omega
          rw [ih (bs.drop 708) (idx + 8) hrec]
          rw [numEntries_big h708', List.range_add, List.map_append, hgroup0]
          refine congrArg₂ List.append rfl ?_
          rw [List.map_map]
          refine List.map_congr_left ?_
          intro t _
          simp only [Function.comp_apply]
          rw [List.drop_drop, entryOff_add_8]
          have e1 : 708 + entryOff t = entryOff t + 708 := by omega
          have e2 : idx + 8 + t = idx + (8 + t) := by omega
          rw [e1, e2]

theorem parse_hues_eq (bs : List Nat) :
    parse_hues bs =
      (List.range (numEntries bs)).map
        (fun k => parseEntry ((bs.drop (entryOff k)).take 88) (1 + k)) := by
  unfold parse_hues
  exact parseGroupsFuel_eq _ bs 1 (by omega)

theorem entryOff_add_88_le {bs : List Nat} {k : Nat} (h : k < numEntries bs) :
    entryOff k + 88 ≤ bs.length := by
  unfold numEntries at h
  unfold entryOff
  by_cases hc : 4 ≤ bs.length % 708
  · rw [if_pos hc] at h
    omega
  · rw [if_neg hc] at h
    omega

theorem slice_take_length {bs : List Nat} {k : Nat} (h : k < numEntries bs) :
    ((bs.drop (entryOff k)).take 88).length = 88 := by
  have := entryOff_add_88_le h
  simp only [List.length_take, List.length_drop]
  omega

theorem slice_append {bs extra : List Nat} {off : Nat} (h : off + 88 ≤ bs.length) :
    ((bs ++ extra).drop off).take 88 = (bs.drop off).take 88 := by
  rw [List.drop_append_of_le_length (by omega),
    List.take_append_of_le_length (by simp; omega)]

theorem color16_eq_div_mod (w : Nat) :
    color16_to_rgb888 w =
      (w / 1024 % 32 * 255 / 31, w / 32 % 32 * 255 / 31, w % 32 * 255 / 31) := by
  have A : ∀ x : Nat, x &&& 31 = x % 32 := fun x => Nat.and_pow_two_sub_one_eq_mod x 5
  simp only [color16_to_rgb888, Nat.shiftRight_eq_div_pow, A]

/-- C1: for every word w, color16_to_rgb888 returns the triple obtained by
scaling the three 5-bit fields (bits 10-14 red, 5-9 green, 0-4 blue) with
integer multiply-then-floor-divide by 255/31; bit 15 is ignored (the
result only depends on w modulo 32768); the function is total, each
channel lies in 0..255, and the boundary fields 0 and 31 map to channels
0 and 255. -/
theorem spec_C1 (w : Nat) :
    color16_to_rgb888 w =
        (((w >>> 10) &&& 0x1F) * 255 / 31, ((w >>> 5) &&& 0x1F) * 255 / 31,
          (w &&& 0x1F) * 255 / 31) ∧
      color16_to_rgb888 w = color16_to_rgb888 (w % 32768) ∧
      (color16_to_rgb888 w).1 ≤ 255 ∧
      (color16_to_rgb888 w).2.1 ≤ 255 ∧
      (color16_to_rgb888 w).2.2 ≤ 255 ∧
      color16_to_rgb888 0 = (0, 0, 0) ∧
      color16_to_rgb888 0x7FFF = (255, 255, 255) := by
  refine ⟨rfl, ?_, ?_, ?_, ?_, by decide, by decide⟩
  · simp only [color16_eq_div_mod, Prod.mk.injEq]
    refine ⟨by omega, by omega, by omega⟩
  · rw [color16_eq_div_mod]
    simp only
    omega
  · rw [color16_eq_div_mod]
    simp only
    omega
  · rw [color16_eq_div_mod]
    simp only
    omega

/-- C2 counterexample: the claim predicts the triple (130, 65, 32) for the
packed word 0b0100000100000100 = 16644, but the code computes 131 for the
red field value 16. -/
theorem spec_C2_counterexample : color16_to_rgb888 16644 ≠ (130, 65, 32) := by
  decide

/-- C2 amended: the 5-bit field value 16 scales to channel 131 (since
16 * 255 / 31 truncates to 131), so the packed word 0b0100000100000100
(R=16, G=8, B=4) decodes to the triple (131, 65, 32). -/
theorem spec_C2 :
    color16_to_rgb888 16644 = (131, 65, 32) ∧
      (color16_to_rgb888 16644).1 = 16 * 255 / 31 := by
  exact ⟨by decide, by decide⟩

/-- C6: a zero-byte source decodes to the empty sequence, and the decoder
has no error path (it is a total function in this embedding). -/
theorem spec_C6 : parse_hues ([] : List Nat) = [] := rfl

/-- C4: for every byte source whose length is an exact multiple of 708,
parse_hues returns exactly 8 * (length / 708) entries, regardless of the
byte values. -/
theorem spec_C4 (bs : List Nat) (n : Nat) (h : bs.length = 708 * n) :
    (parse_hues bs).length = 8 * n := by
  rw [parse_hues_eq, List.length_map, List.length_range]
  unfold numEntries
  rw [h]
  have h1 : 708 * n / 708 = n := by omega
  have h2 : 708 * n % 708 = 0 := by omega
  rw [h1, h2, if_neg (by omega)]
  omega

/-- Witness for C4 at a concrete 708-byte source. -/
theorem spec_C4_witness : (parse_hues (List.replicate 708 (0 : Nat))).length = 8 * 1 :=
  spec_C4 (List.replicate 708 0) 1 (by rw [List.length_replicate])

/-- C7: the record at position k (0-based) of the output carries index
k + 1, so indices start at 1 and increase by exactly 1 across the whole
file, independent of group boundaries. -/
theorem spec_C7 (bs : List Nat) (k : Nat) (h : k < (parse_hues bs).length) :
    ((parse_hues bs).get ⟨k, h⟩).index = k + 1 := by
  have hk : k < numEntries bs := by
    have h2 := h
    rw [parse_hues_eq, List.length_map, List.length_range] at h2
    exact h2
  have e1 : (parse_hues bs)[k]? =
      some (parseEntry ((bs.drop (entryOff k)).take 88) (1 + k)) := by
    rw [parse_hues_eq, List.getElem?_map, List.getElem?_range hk]
    rfl
  have e2 : (parse_hues bs)[k]? = some ((parse_hues bs).get ⟨k, h⟩) := by
    rw [List.getElem?_eq_getElem h]
    rfl
  rw [e2] at e1
  rw [Option.some.inj e1]
  simp [parseEntry]
  omega

set_option maxRecDepth 100000 in
/-- Witness for C7 at a concrete source holding one truncated group. -/
theorem spec_C7_witness :
    ((parse_hues (List.replicate 92 (0 : Nat))).get ⟨0, by decide⟩).index = 0 + 1 :=
  spec_C7 (List.replicate 92 0) 0 (by decide)

/-- C5: every entry in the output is complete: all five fields populated,
both color lists of length 32, colorsRGB slot-wise the codec image of
colors16, and start, end, colors and name all read from the full 88-byte
record slice of the source at the position of the entry (the slice has
length 88, so a partially available record is never surfaced). -/
theorem spec_C5 (bs : List Nat) (e : HueEntry) (he : e ∈ parse_hues bs) :
    e.colors16.length = 32 ∧
      e.colorsRGB.length = 32 ∧
      e.colorsRGB = e.colors16.map color16_to_rgb888 ∧
      1 ≤ e.index ∧
      ((bs.drop (entryOff (e.index - 1))).take 88).length = 88 ∧
      e.colors16 =
        (List.range 32).map (word16 ((bs.drop (entryOff (e.index - 1))).take 88)) ∧
      e.start = word16 ((bs.drop (entryOff (e.index - 1))).take 88) 32 ∧
      e.«end» = word16 ((bs.drop (entryOff (e.index - 1))).take 88) 33 ∧
      e.name =
        decodeName ((((bs.drop (entryOff (e.index - 1))).take 88).drop 68).take 20) := by
  rw [parse_hues_eq] at he
  rcases List.mem_map.mp he with ⟨k, hk, rfl⟩
  have hkn : k < numEntries bs := List.mem_range.mp hk
  have hidx : (parseEntry ((bs.drop (entryOff k)).take 88) (1 + k)).index - 1 = k := by
    simp [parseEntry]
  rw [hidx]
  refine ⟨by simp [parseEntry], by simp [parseEntry], by simp [parseEntry],
    by simp [parseEntry], slice_take_length hkn, by simp [parseEntry],
    by simp [parseEntry], by simp [parseEntry], by simp [parseEntry]⟩

def wbs : List Nat := List.replicate 92 0

def wentry : HueEntry := parseEntry ((wbs.drop 4).take 88) 1

set_option maxRecDepth 200000 in
/-- Witness for C5: the single entry decoded from a 92-byte source. -/
theorem spec_C5_witness :
    wentry.colors16.length = 32 ∧
      wentry.colorsRGB.length = 32 ∧
      wentry.colorsRGB = wentry.colors16.map color16_to_rgb888 ∧
      1 ≤ wentry.index ∧
      ((wbs.drop (entryOff (wentry.index - 1))).take 88).length = 88 ∧
      wentry.colors16 =
        (List.range 32).map (word16 ((wbs.drop (entryOff (wentry.index - 1))).take 88)) ∧
      wentry.start = word16 ((wbs.drop (entryOff (wentry.index - 1))).take 88) 32 ∧
      wentry.«end» = word16 ((wbs.drop (entryOff (wentry.index - 1))).take 88) 33 ∧
      wentry.name =
        decodeName
          ((((wbs.drop (entryOff (wentry.index - 1))).take 88).drop 68).take 20) :=
  spec_C5 wbs wentry (by decide)

theorem parse_append_small (bs extra : List Nat) (hb : bs.length % 708 = 0)
    (he : extra.length < 92) : parse_hues (bs ++ extra) = parse_hues bs := by
  have hlen : (bs ++ extra).length = bs.length + extra.length := by simp
  have hnum : numEntries (bs ++ extra) = numEntries bs := by
    unfold numEntries
    rw [hlen]
    have e1 : (bs.length + extra.length) / 708 = bs.length / 708 := by omega
    have e2 : (bs.length + extra.length) % 708 = extra.length := by omega
    rw [e1, e2, hb]
    rw [if_neg (by omega : ¬ (4 : Nat) ≤ 0)]
    by_cases h4 : 4 ≤ extra.length
    · rw [if_pos h4]
      have e3 : (extra.length - 4) / 88 = 0 := by omega
      rw [e3]
      simp
    · rw [if_neg h4]
  rw [parse_hues_eq, parse_hues_eq, hnum]
  refine List.map_congr_left ?_
  intro k hk
  have hkn : k < numEntries bs := List.mem_range.mp hk
  rw [slice_append (entryOff_add_88_le hkn)]

theorem parse_append_count (bs extra : List Nat) (hb : bs.length % 708 = 0)
    (he : extra.length < 708) :
    (parse_hues (bs ++ extra)).length =
      (parse_hues bs).length +
        (if 4 ≤ extra.length then (extra.length - 4) / 88 else 0) := by
  rw [parse_hues_eq, parse_hues_eq, List.length_map, List.length_range,
    List.length_map, List.length_range]
  unfold numEntries
  simp only [List.length_append]
  have e1 : (bs.length + extra.length) / 708 = bs.length / 708 := by omega
  have e2 : (bs.length + extra.length) % 708 = extra.length := by omega
  rw [e1, e2, hb, if_neg (by omega : ¬ (4 : Nat) ≤ 0)]
  by_cases h4 : 4 ≤ extra.length
  · rw [if_pos h4, if_pos h4]
    omega
  · rw [if_neg h4, if_neg h4]

/-- C3: truncation is absorbed silently.  Appending fewer than 4 bytes
(a short group marker) or a marker plus fewer than 88 bytes (a short
first record) to whole groups leaves the output unchanged; for any
trailing fragment shorter than a full group the output gains exactly the
records that fit completely after the 4-byte marker, so a truncated
record stops the whole decode; in particular a 708 + 50 byte source
decodes to exactly the 8 entries of its first group. -/
theorem spec_C3 :
    (∀ bs extra : List Nat, bs.length % 708 = 0 → extra.length < 92 →
        parse_hues (bs ++ extra) = parse_hues bs) ∧
      (∀ bs extra : List Nat, bs.length % 708 = 0 → extra.length < 708 →
          (parse_hues (bs ++ extra)).length =
            (parse_hues bs).length +
              (if 4 ≤ extra.length then (extra.length - 4) / 88 else 0)) ∧
      parse_hues (List.replicate 708 (0 : Nat) ++ List.replicate 50 0) =
        parse_hues (List.replicate 708 (0 : Nat)) ∧
      (parse_hues (List.replicate 708 (0 : Nat) ++ List.replicate 50 0)).length = 8 := by
  have h1 : (List.replicate 708 (0 : Nat)).length % 708 = 0 := by
    rw [List.length_replicate]
  have h2 : (List.replicate 50 (0 : Nat)).length < 92 := by
    rw [List.length_replicate]
    omega
  refine ⟨parse_append_small, parse_append_count, parse_append_small _ _ h1 h2, ?_⟩
  rw [parse_append_small _ _ h1 h2, parse_hues_eq, List.length_map, List.length_range]
  unfold numEntries
  rw [List.length_replicate]
  norm_num

/-- Witness for C3: three zero bytes appended to the empty source are
absorbed. -/
theorem spec_C3_witness :
    parse_hues (([] : List Nat) ++ List.replicate 3 0) = parse_hues ([] : List Nat) :=
  spec_C3.1 [] (List.replicate 3 0) rfl (by rw [List.length_replicate]; omega)

theorem getD_slices_eq {l1 l2 : List Nat} (hlen : l1.length = l2.length)
    (hag : ∀ i : Nat, 4 ≤ i % 708 → l1.getD i 0 = l2.getD i 0)
    {off : Nat} (hpos : ∀ t : Nat, t < 88 → 4 ≤ (off + t) % 708) :
    (l1.drop off).take 88 = (l2.drop off).take 88 := by
  apply List.ext_getElem?
  intro t
  by_cases ht : t < 88
  · rw [List.getElem?_take_of_lt ht, List.getElem?_take_of_lt ht,
      List.getElem?_drop, List.getElem?_drop]
    by_cases hin : off + t < l1.length
    · have hin2 : off + t < l2.length := by omega
      have hgd := hag (off + t) (hpos t ht)
      rw [List.getD_eq_getElem?_getD, List.getD_eq_getElem?_getD,
        List.getElem?_eq_getElem hin, List.getElem?_eq_getElem hin2] at hgd
      simp only [Option.getD_some] at hgd
      rw [List.getElem?_eq_getElem hin, List.getElem?_eq_getElem hin2, hgd]
    · rw [List.getElem?_eq_none (by omega), List.getElem?_eq_none (by omega)]
  · rw [List.getElem?_take_eq_none (by omega), List.getElem?_take_eq_none (by omega)]

/-- C9: group markers are never interpreted.  Two sources of equal length
that agree at every byte position outside the 4-byte marker slots (the
positions congruent to 0..3 modulo 708) decode to identical output
sequences, so no marker byte influences any output field. -/
theorem spec_C9 (bs1 bs2 : List Nat) (hlen : bs1.length = bs2.length)
    (hag : ∀ i : Nat, 4 ≤ i % 708 → bs1.getD i 0 = bs2.getD i 0) :
    parse_hues bs1 = parse_hues bs2 := by
  have hnum : numEntries bs1 = numEntries bs2 := by
    unfold numEntries
    rw [hlen]
  rw [parse_hues_eq, parse_hues_eq, hnum]
  refine List.map_congr_left ?_
  intro k hk
  have hkn : k < numEntries bs2 := List.mem_range.mp hk
  have hslice : (bs1.drop (entryOff k)).take 88 = (bs2.drop (entryOff k)).take 88 := by
    refine getD_slices_eq hlen hag ?_
    intro t ht
    unfold entryOff
    have hm : k % 8 < 8 := Nat.mod_lt _ (by omega)
    have hsw : 708 * (k / 8) + 4 + 88 * (k % 8) + t =
        4 + 88 * (k % 8) + t + 708 * (k / 8) := by ring
    rw [hsw, Nat.add_mul_mod_self_left, Nat.mod_eq_of_lt (by omega)]
    omega
  rw [hslice]

/-- Witness for C9: two marker-only sources with different marker bytes
decode identically. -/
theorem spec_C9_witness : parse_hues [9, 9, 9, 9] = parse_hues [0, 0, 0, 0] :=
  spec_C9 [9, 9, 9, 9] [0, 0, 0, 0] rfl (fun i hi => by
    have h4 : 4 ≤ i := le_trans hi (Nat.mod_le i 708)
    rw [List.getD_eq_getElem?_getD, List.getD_eq_getElem?_getD,
      List.getElem?_eq_none (by simp; omega), List.getElem?_eq_none (by simp; omega)])

theorem mem_pyStrip {x : Nat} {l : List Nat} (h : x ∈ pyStrip l) : x ∈ l := by
  unfold pyStrip at h
  rw [List.mem_reverse] at h
  have h2 := (List.dropWhile_sublist pyIsSpace).subset h
  rw [List.mem_reverse] at h2
  exact (List.dropWhile_sublist pyIsSpace).subset h2

theorem zero_not_mem_decodeNameCodes (bs : List Nat) : 0 ∉ decodeNameCodes bs := by
  intro h
  unfold decodeNameCodes at h
  have h1 := mem_pyStrip h
  have h2 := (List.mem_filter.mp h1).1
  have h3 := List.mem_takeWhile_imp h2
  simp at h3

theorem decodeNameCodes_append_nul {pre rest : List Nat} (hp : 0 ∉ pre) :
    decodeNameCodes (pre ++ 0 :: rest) = decodeNameCodes pre := by
  have hall : ∀ a ∈ pre, (a != 0) = true := by
    intro a ha
    simp only [bne_iff_ne, ne_eq]
    intro e
    exact hp (e ▸ ha)
  unfold decodeNameCodes
  rw [List.takeWhile_append_of_pos hall,
    List.takeWhile_cons_of_neg (by simp), List.append_nil]
  have hself : pre.takeWhile (fun b => b != 0) = pre := by
    have h2 := @List.takeWhile_append_of_pos Nat (fun b => b != 0) pre [] hall
    simpa using h2
  rw [hself]

theorem decodeNameCodes_drop_high {l1 l2 : List Nat} {b : Nat} (hb : 128 ≤ b) :
    decodeNameCodes (l1 ++ b :: l2) = decodeNameCodes (l1 ++ l2) := by
  unfold decodeNameCodes
  rw [List.takeWhile_append, List.takeWhile_append]
  by_cases hc : (l1.takeWhile (fun b => b != 0)).length = l1.length
  · rw [if_pos hc, if_pos hc,
      @List.takeWhile_cons_of_pos Nat (fun x => x != 0) b l2 (by simp; omega),
      List.filter_append, List.filter_append,
      @List.filter_cons_of_neg Nat (fun x => decide (x < 128)) b
        (l2.takeWhile (fun x => x != 0)) (by simp; omega)]
  · rw [if_neg hc, if_neg hc]

theorem head?_dropWhile_false {p : Nat → Bool} {l : List Nat} {c : Nat}
    (h : (l.dropWhile p).head? = some c) : p c = false := by
  have h2 := List.head?_dropWhile_not p l
  rw [h] at h2
  exact h2

theorem getLast?_dropWhile_of_ne_nil {p : Nat → Bool} : ∀ {l : List Nat},
    l.dropWhile p ≠ [] → (l.dropWhile p).getLast? = l.getLast? := by
  intro l
  induction l with
  | nil =>
    intro h
    simp at h
  | cons x xs ih =>
    intro h
    by_cases hx : p x
    · rw [List.dropWhile_cons_of_pos hx] at h ⊢
      rw [ih h]
      have hxs : xs ≠ [] := by
        intro e
        rw [e] at h
        simp at h
      cases xs with
      | nil => exact absurd rfl hxs
      | cons y ys => rw [List.getLast?_cons_cons]
    · rw [List.dropWhile_cons_of_neg hx]

theorem pyStrip_getLast?_not_space {l : List Nat} {c : Nat}
    (h : (pyStrip l).getLast? = some c) : pyIsSpace c = false := by
  unfold pyStrip at h
  rw [List.getLast?_reverse] at h
  exact head?_dropWhile_false h

theorem pyStrip_head?_not_space {l : List Nat} {c : Nat}
    (h : (pyStrip l).head? = some c) : pyIsSpace c = false := by
  unfold pyStrip at h
  rw [List.head?_reverse] at h
  have hne : List.dropWhile pyIsSpace ((l.dropWhile pyIsSpace).reverse) ≠ [] := by
    intro e
    rw [e] at h
    simp at h
  rw [getLast?_dropWhile_of_ne_nil hne, List.getLast?_reverse] at h
  exact head?_dropWhile_false h

/-- C10: the decoded name never contains a NUL; decoding splits at the
first NUL and discards everything after it, even printable ascii; both
leading and trailing whitespace is stripped from the surviving prefix
(the first and last kept code are never whitespace, and a concrete field
with leading blanks decodes to the bare word). -/
theorem spec_C10 :
    (∀ bs : List Nat, 0 ∉ decodeNameCodes bs) ∧
      (∀ pre rest : List Nat, 0 ∉ pre →
          decodeNameCodes (pre ++ 0 :: rest) = decodeNameCodes pre) ∧
      (∀ (bs : List Nat) (c : Nat), (decodeNameCodes bs).head? = some c →
          pyIsSpace c = false) ∧
      (∀ (bs : List Nat) (c : Nat), (decodeNameCodes bs).getLast? = some c →
          pyIsSpace c = false) ∧
      decodeName ([32, 9, 82, 101, 100, 32] ++ List.replicate 14 0) = "Red" ∧
      decodeNameCodes ([82, 101, 100, 0, 65, 66] ++ List.replicate 14 0) =
        [82, 101, 100] := by
  refine ⟨zero_not_mem_decodeNameCodes,
    fun pre rest hp => decodeNameCodes_append_nul hp,
    fun bs c h => pyStrip_head?_not_space h,
    fun bs c h => pyStrip_getLast?_not_space h,
    by decide, by decide⟩

/-- Witness for C10: printable ascii after the first NUL is discarded. -/
theorem spec_C10_witness :
    decodeNameCodes ([82, 101, 100] ++ 0 :: [65, 66]) = decodeNameCodes [82, 101, 100] :=
  spec_C10.2.1 [82, 101, 100] [65, 66] (by decide)

/-- C8 counterexample: the name field Red, 0x01, then NUL padding keeps
the non-printable 0x01 (Python str.strip only removes whitespace), so the
decoded name is not the trimmed "Red" the claim predicts. -/
theorem spec_C8_counterexample :
    decodeName ([82, 101, 100, 1] ++ List.replicate 16 0) ≠ "Red" := by
  decide

/-- C8 amended: name decoding is total and lossy-tolerant: the NUL-padded
field Red decodes to "Red"; bytes that the ascii codec cannot decode
(values 128 and above) are dropped wherever they occur rather than
failing; but a non-printable byte below 128 that is not whitespace and
sits before the first NUL is kept, not stripped (the field Red, 0x01,
NUL padding decodes to "Red\x01"). -/
theorem spec_C8 :
    decodeName ([82, 101, 100] ++ List.replicate 17 0) = "Red" ∧
      decodeName ([82, 101, 100, 1] ++ List.replicate 16 0) = "Red\x01" ∧
      (∀ (l1 l2 : List Nat) (b : Nat), 128 ≤ b →
          decodeName (l1 ++ b :: l2) = decodeName (l1 ++ l2)) := by
  refine ⟨by decide, by decide, ?_⟩
  intro l1 l2 b hb
  unfold decodeName
  rw [decodeNameCodes_drop_high hb]

/-- Witness for C8: an undecodable byte inside the name field is dropped
without failing. -/
theorem spec_C8_witness :
    decodeName ([82] ++ 200 :: [101, 100]) = decodeName ([82] ++ [101, 100]) :=
  spec_C8.2.2 [82] [101, 100] 200 (by omega)
